import Mathlib

/-!
Verification of the deepsource-vscode extension (`src/extension.ts`) against its
specification. The extension's own logic — occurrence-to-diagnostic translation
(`prepareDiagnostics`), fetch orchestration (`fetchAnalysisReport`,
`calculateDiagnostics`, the `getAnalysisReport` command handler), the
active-editor event handler, and the remote-URL parsing in
`getRepoAndUserName` — is embedded shallowly below. External collaborators
(the vscode API, node's `path.join`, the git client, the DeepSource API
client, the `vscode-cache` store) are modelled by plain data: their replies
become parameters, and mutable module-level state becomes an explicit state
record.
-/

/-- Issue metadata attached to an occurrence; only `title` is read by the
extension (line 92 of `extension.ts`). -/
structure Issue where
  title : String
deriving DecidableEq

/-- An occurrence as delivered by the DeepSource client (`Occurence` in
`deepsource-node`): a repository-relative path, one-based line/column numbers
(JS numbers, modelled as `Int`), and issue metadata. -/
structure Occurence where
  path : String
  beginLine : Int
  endLine : Int
  beginColumn : Int
  endColumn : Int
  issue : Issue
deriving DecidableEq

/-- The `RepoInfo` type of `extension.ts` (lines 9-12). -/
structure RepoInfo where
  userName : String
  repoName : String
deriving DecidableEq

/-- Model of `vscode.Position`: the pair of numbers the extension passes to the
constructor (lines 86-87). The vscode host's own argument validation is outside
the embedded code. -/
structure Position where
  line : Int
  character : Int
deriving DecidableEq

/-- Model of `vscode.Range` (line 88); `stop` models the range's `end`. -/
structure Range where
  start : Position
  stop : Position
deriving DecidableEq

/-- Model of `vscode.DiagnosticSeverity`. -/
inductive DiagnosticSeverity where
  | Error
  | Warning
  | Information
  | Hint
deriving DecidableEq

/-- Model of `vscode.Diagnostic` as constructed on lines 90-94: a range, a
message and a severity. -/
structure Diagnostic where
  range : Range
  message : String
  severity : DiagnosticSeverity
deriving DecidableEq

/-- Model of node's `path.join(workspaceDirPath, occurrence.path)` as used on
line 78: concatenation with a separator (no occurrence path in this design
needs node's `.`/`..` normalisation). -/
def pathJoin (workspaceDirPath p : String) : String :=
  workspaceDirPath ++ "/" ++ p

/-- The loop body of `prepareDiagnostics` (lines 84-94): adjust the begin
column only when it is strictly positive, shift both lines down by one, keep
the end column, and build an Error diagnostic carrying the issue title. -/
def mkDiagnostic (occurrence : Occurence) : Diagnostic :=
  let beginCol : Int :=
    if occurrence.beginColumn > 0 then occurrence.beginColumn - 1 else occurrence.beginColumn
  let startPos : Position := ⟨occurrence.beginLine - 1, beginCol⟩
  let endPos : Position := ⟨occurrence.endLine - 1, occurrence.endColumn⟩
  let range : Range := ⟨startPos, endPos⟩
  ⟨range, occurrence.issue.title, DiagnosticSeverity.Error⟩

/-- The `DiagnosticMap` type of `extension.ts` (line 50): a JS `Map` from file
paths to diagnostic arrays, modelled as an insertion-ordered association list
with unique keys. -/
abbrev DiagnosticMap := List (String × List Diagnostic)

/-- JS `Map.get`: the value at the first (hence, with unique keys, only) entry
for the key. -/
def mapGet : DiagnosticMap → String → Option (List Diagnostic)
  | [], _ => none
  | (k, ds) :: rest, filePath => if k == filePath then some ds else mapGet rest filePath

/-- JS `Map.has`. -/
def mapHas (diagnosticMap : DiagnosticMap) (filePath : String) : Bool :=
  (mapGet diagnosticMap filePath).isSome

/-- JS `Map.set`: replace the entry for the key, or add one at the end. -/
def mapSet : DiagnosticMap → String → List Diagnostic → DiagnosticMap
  | [], filePath, ds => [(filePath, ds)]
  | (k, old) :: rest, filePath, ds =>
    if k == filePath then (k, ds) :: rest else (k, old) :: mapSet rest filePath ds

/-- The `has`/`get`-`push`/`set` block of `prepareDiagnostics` (lines 96-101):
append the diagnostic to the existing entry for the path, or create a fresh
singleton entry. -/
def pushDiagnostic : DiagnosticMap → String → Diagnostic → DiagnosticMap
  | [], filePath, d => [(filePath, [d])]
  | (k, ds) :: rest, filePath, d =>
    if k == filePath then (k, ds ++ [d]) :: rest
    else (k, ds) :: pushDiagnostic rest filePath d

/-- The in-place path rewrite of lines 76-79: every occurrence's path is
replaced by its join with the workspace root. In the source this mutates the
caller's array; here the rewritten list is returned explicitly. -/
def rewritePaths (workspaceDirPath : String) (occurrences : List Occurence) : List Occurence :=
  occurrences.map fun occurrence =>
    { occurrence with path := pathJoin workspaceDirPath occurrence.path }

/-- One iteration of the `for` loop of lines 81-102. -/
def addOccurrence (diagnosticMap : DiagnosticMap) (occurrence : Occurence) : DiagnosticMap :=
  pushDiagnostic diagnosticMap occurrence.path (mkDiagnostic occurrence)

/-- The pure content of `prepareDiagnostics` (lines 64-106): rewrite the paths
to absolute form, then group the per-occurrence diagnostics into a fresh map.
The `.deepsource/issues.json` dump (lines 70-74, 104) is a filesystem side
effect with no bearing on the returned map and is not modelled. -/
def prepareDiagnostics (workspaceDirPath : String) (occurrences : List Occurence) : DiagnosticMap :=
  (rewritePaths workspaceDirPath occurrences).foldl addOccurrence []

/-- Two sequential calls of `prepareDiagnostics` on the *same* occurrence
array. The first call rewrites `occurrence.path` in place (lines 76-79), so in
the source the second call receives the already-rewritten occurrences; the pair
holds the two returned maps in call order. -/
def prepareDiagnosticsTwice (workspaceDirPath : String) (occurrences : List Occurence) :
    DiagnosticMap × DiagnosticMap :=
  let firstMap := prepareDiagnostics workspaceDirPath occurrences
  let mutated := rewritePaths workspaceDirPath occurrences
  let secondMap := prepareDiagnostics workspaceDirPath mutated
  (firstMap, secondMap)

/-- The module-level mutable session state of `extension.ts` (lines 52-55)
together with the single `personal-access-token` slot of the `vscode-cache`
store: `cacheToken = none` models an absent key (`has` false). -/
structure ExtState where
  deepSource : Option String
  userName : Option String
  repoName : Option String
  cacheToken : Option String
  diagnosticsInFile : DiagnosticMap
deriving DecidableEq

/-- The assignment `diagnosticsInFile = prepareDiagnostics(...)` of line 142,
as a state update. -/
def runTranslate (st : ExtState) (workspaceDirPath : String)
    (occurrences : List Occurence) : ExtState :=
  { st with diagnosticsInFile := prepareDiagnostics workspaceDirPath occurrences }

/-- The error text built on lines 122-125. -/
def unableToFetchMsg (repoName userName : String) : String :=
  s!"Unable to fetch data for repository: {repoName}, under account \"{userName}\".\n" ++
    "Please ensure analysis is activated on https://deepsource.com."

/-- Model of `fetchAnalysisReport` (lines 113-130). `apiResult` stands for the
reply of the external `deepSource.getAllIssuesInRepo` call (`none` = no data).
Returns the occurrences (or `none` on failure) paired with the error messages
shown. -/
def fetchAnalysisReport (st : ExtState) (apiResult : Option (List Occurence)) :
    Option (List Occurence) × List String :=
  match st.deepSource, st.userName, st.repoName with
  | some _, some userName, some repoName =>
    match apiResult with
    | none => (none, [unableToFetchMsg repoName userName])
    | some occurrences => (some occurrences, [])
  | _, _, _ => (none, [])

/-- Result of one `calculateDiagnostics` or command invocation: the new session
state, the success flag, and the user-visible messages in order shown. -/
structure CalcResult where
  state : ExtState
  success : Bool
  messages : List String
deriving DecidableEq

/-- Model of `calculateDiagnostics` (lines 137-147): on fetch failure the state
is untouched and `false` is returned; on success `diagnosticsInFile` is
replaced wholesale and a success notification is shown. -/
def calculateDiagnostics (workspaceDirPath : String) (st : ExtState)
    (apiResult : Option (List Occurence)) : CalcResult :=
  let fetched := fetchAnalysisReport st apiResult
  match fetched.1 with
  | none => ⟨st, false, fetched.2⟩
  | some occurrences =>
    ⟨{ st with diagnosticsInFile := prepareDiagnostics workspaceDirPath occurrences }, true,
      fetched.2 ++ ["Successfully fetched issues from deepsource.io"]⟩

/-- Result of one invocation of the `extension.getAnalysisReport` command:
the new state, whether the input box was shown, and the messages shown. -/
structure CommandResult where
  state : ExtState
  prompted : Bool
  messages : List String
deriving DecidableEq

/-- Model of the `extension.getAnalysisReport` command handler (lines 170-196).
`promptResult` stands for the reply of `showInputBox` (`none` = cancelled), and
`apiResult` for the DeepSource client's reply; `if (!pat) return` treats both a
cancelled box and an empty string as absent. -/
def runGetAnalysisReport (workspaceDirPath : String) (st : ExtState)
    (promptResult : Option String) (apiResult : Option (List Occurence)) : CommandResult :=
  match st.deepSource with
  | some _ =>
    let r := calculateDiagnostics workspaceDirPath st apiResult
    ⟨r.state, false, r.messages⟩
  | none =>
    match st.cacheToken with
    | some accessToken =>
      let st' := { st with deepSource := some accessToken, cacheToken := some accessToken }
      let r := calculateDiagnostics workspaceDirPath st' apiResult
      ⟨r.state, false, r.messages⟩
    | none =>
      match promptResult with
      | none => ⟨st, true, []⟩
      | some pat =>
        if pat = "" then ⟨st, true, []⟩
        else
          let st' := { st with deepSource := some pat, cacheToken := some pat }
          let r := calculateDiagnostics workspaceDirPath st' apiResult
          if r.success then ⟨r.state, true, r.messages⟩
          else
            ⟨{ r.state with cacheToken := none }, true,
              r.messages ++ ["Incorrect personal access token."]⟩

/-- Model of the `onDidChangeActiveTextEditor` callback (lines 213-225).
`display` is the current content of the `deepsource` diagnostic collection
(file path to shown diagnostics); `activeFilePath` is the new editor's file, or
`none` when no editor is active. Returns the new display content: the callback
first clears the whole collection, then sets the single entry for the active
file when the diagnostic map has one. -/
def handleActiveEditorChange (display : DiagnosticMap) (diagnosticsInFile : DiagnosticMap)
    (activeFilePath : Option String) : DiagnosticMap :=
  match activeFilePath with
  | none => display
  | some filePath =>
    let cleared : DiagnosticMap := []
    if mapHas diagnosticsInFile filePath then
      mapSet cleared filePath ((mapGet diagnosticsInFile filePath).getD [])
    else cleared

/-- JS `\w` (no unicode flag) or a hyphen: the character class of the
`([\w-]+)\/([\w-]+)\.git` regex on line 28. -/
def isWordOrHyphen (c : Char) : Bool :=
  c.isAlphanum || c == '_' || c == '-'

/-- Whether a character list starts with the literal `.git` required by the
regex after the second capture group. -/
def startsWithDotGit : List Char → Bool
  | c1 :: c2 :: c3 :: c4 :: _ => c1 == '.' && c2 == 'g' && c3 == 'i' && c4 == 't'
  | _ => false

/-- One attempted match of `([\w-]+)\/([\w-]+)\.git` anchored at the start of
`cs`: both capture groups are greedy maximal runs of word-or-hyphen characters
(shrinking a run can never help this pattern, so greedy capture is exact). -/
def matchAt (cs : List Char) : Option (List Char × List Char) :=
  let u := cs.takeWhile isWordOrHyphen
  match cs.dropWhile isWordOrHyphen with
  | [] => none
  | c :: rest =>
    if c == '/' then
      let r := rest.takeWhile isWordOrHyphen
      if u.isEmpty || r.isEmpty then none
      else if startsWithDotGit (rest.dropWhile isWordOrHyphen) then some (u, r)
      else none
    else none

/-- JS `String.match` with a non-global regex: the leftmost position at which
the pattern matches, scanning start positions left to right. -/
def findMatch : List Char → Option (List Char × List Char)
  | [] => none
  | c :: cs =>
    match matchAt (c :: cs) with
    | some result => some result
    | none => findMatch cs

/-- Model of `getRepoAndUserName` (lines 21-37). The git collaborator's replies
are parameters: `isRepo` for `checkIsRepo`, `remoteUrl` for the configured
`remote.origin.url` value (absent when unset). A successful match of the
line-28 regex always has 3 entries (full match plus two groups), so the
`matches.length == 3` test of line 30 always passes on a match. -/
def getRepoAndUserName (isRepo : Bool) (remoteUrl : Option String) : Option RepoInfo :=
  if isRepo then
    match remoteUrl with
    | some url =>
      match findMatch url.toList with
      | some (userChars, repoChars) => some ⟨String.mk userChars, String.mk repoChars⟩
      | none => none
    | none => none
  else none

/-- Split a character list on `/` separators. -/
def splitSlashes : List Char → List (List Char)
  | [] => [[]]
  | c :: cs =>
    let rest := splitSlashes cs
    if c == '/' then [] :: rest
    else
      match rest with
      | seg :: segs => (c :: seg) :: segs
      | [] => [[c]]

/-- Modelled from the claim's words (spec section 4.1): strip an *optional*
`.git` suffix, then take the final two `/`-separated segments of the URL and
succeed exactly when both are nonempty and composed of word characters or
hyphens. Stated for comparison with `getRepoAndUserName`, which embeds the
code's actual regex. -/
def claimResolveUrl (url : String) : Option RepoInfo :=
  let cs := url.toList
  let stripped :=
    if List.isSuffixOf ['.', 'g', 'i', 't'] cs then cs.take (cs.length - 4) else cs
  match (splitSlashes stripped).reverse with
  | repoSeg :: userSeg :: _ =>
    if !repoSeg.isEmpty && !userSeg.isEmpty &&
        repoSeg.all isWordOrHyphen && userSeg.all isWordOrHyphen then
      some ⟨String.mk userSeg, String.mk repoSeg⟩
    else none
  | _ => none

/-- Total number of diagnostics held in a diagnostic map. -/
def totalDiagnostics : DiagnosticMap → Nat
  | [] => 0
  | (_, ds) :: rest => ds.length + totalDiagnostics rest

/-- Append a batch of diagnostics to an optional entry, yielding `none` only
when both sides are empty; describes what grouping does to a single key. -/
def appendOpt : Option (List Diagnostic) → List Diagnostic → Option (List Diagnostic)
  | some ds, extra => some (ds ++ extra)
  | none, [] => none
  | none, extra => some extra

/-! Grouping lemmas: how `prepareDiagnostics` fills the map. -/

theorem appendOpt_nil (o : Option (List Diagnostic)) : appendOpt o [] = o := by
  cases o <;> simp [appendOpt]

theorem appendOpt_none_of_ne_nil {extra : List Diagnostic} (h : extra ≠ []) :
    appendOpt none extra = some extra := by
  cases extra with
  | nil => exact absurd rfl h
  | cons d rest => rfl

theorem appendOpt_none_eq_some {extra ds : List Diagnostic}
    (h : appendOpt none extra = some ds) : ds = extra := by
  cases extra with
  | nil => exact absurd h (by simp [appendOpt])
  | cons e rest => exact (Option.some.inj h).symm

theorem appendOpt_none_isSome (extra : List Diagnostic) :
    (appendOpt none extra).isSome = true ↔ extra ≠ [] := by
  cases extra <;> simp [appendOpt]

theorem mapGet_pushDiagnostic_self (m : DiagnosticMap) (k : String) (d : Diagnostic) :
    mapGet (pushDiagnostic m k d) k = some ((mapGet m k).getD [] ++ [d]) := by
  induction m with
  | nil => simp [pushDiagnostic, mapGet]
  | cons e rest ih =>
    obtain ⟨k', ds⟩ := e
    by_cases h : k' = k
    · subst h; simp [pushDiagnostic, mapGet]
    · simp [pushDiagnostic, mapGet, h, ih]

theorem mapGet_pushDiagnostic_ne (m : DiagnosticMap) (k filePath : String) (d : Diagnostic)
    (h : k ≠ filePath) : mapGet (pushDiagnostic m filePath d) k = mapGet m k := by
  induction m with
  | nil => simp [pushDiagnostic, mapGet, Ne.symm h]
  | cons e rest ih =>
    obtain ⟨k', ds⟩ := e
    by_cases h' : k' = filePath
    · subst h'; simp [pushDiagnostic, mapGet, Ne.symm h]
    · simp [pushDiagnostic, mapGet, h', ih]

theorem foldl_addOccurrence_get (occs : List Occurence) :
    ∀ (m : DiagnosticMap) (k : String),
      mapGet (occs.foldl addOccurrence m) k
        = appendOpt (mapGet m k)
            ((occs.filter fun occurrence => occurrence.path == k).map mkDiagnostic) := by
  induction occs with
  | nil => intro m k; simp [appendOpt_nil]
  | cons occ rest ih =>
    intro m k
    by_cases h : occ.path = k
    · rw [List.foldl_cons, ih,
        show addOccurrence m occ = pushDiagnostic m occ.path (mkDiagnostic occ) from rfl,
        h, mapGet_pushDiagnostic_self, List.filter_cons_of_pos (by simp [h]), List.map_cons]
      cases hm : mapGet m k <;> simp [appendOpt]
    · rw [List.foldl_cons, ih,
        show addOccurrence m occ = pushDiagnostic m occ.path (mkDiagnostic occ) from rfl,
        mapGet_pushDiagnostic_ne m k occ.path _ (Ne.symm h),
        List.filter_cons_of_neg (by simp [h])]

theorem prepareDiagnostics_get (workspaceDirPath : String) (occurrences : List Occurence)
    (k : String) :
    mapGet (prepareDiagnostics workspaceDirPath occurrences) k
      = appendOpt none
          (((rewritePaths workspaceDirPath occurrences).filter
              fun occurrence => occurrence.path == k).map mkDiagnostic) := by
  rw [prepareDiagnostics, foldl_addOccurrence_get]
  rfl

theorem mk_mem_filtered (ws : String) (occs : List Occurence) (occ : Occurence)
    (hocc : occ ∈ occs) :
    mkDiagnostic occ ∈ ((rewritePaths ws occs).filter
        fun o => o.path == pathJoin ws occ.path).map mkDiagnostic := by
  apply List.mem_map.mpr
  refine ⟨{ occ with path := pathJoin ws occ.path }, ?_, rfl⟩
  apply List.mem_filter.mpr
  refine ⟨?_, by simp⟩
  rw [rewritePaths]
  exact List.mem_map.mpr ⟨occ, hocc, rfl⟩

theorem mapGet_prepareDiagnostics_mem (ws : String) (occs : List Occurence) (occ : Occurence)
    (hocc : occ ∈ occs) :
    ∃ ds, mapGet (prepareDiagnostics ws occs) (pathJoin ws occ.path) = some ds ∧
      mkDiagnostic occ ∈ ds := by
  have hmem := mk_mem_filtered ws occs occ hocc
  refine ⟨_, ?_, hmem⟩
  rw [prepareDiagnostics_get]
  exact appendOpt_none_of_ne_nil (List.ne_nil_of_mem hmem)

theorem mem_mapGet_prepareDiagnostics {ws : String} {occs : List Occurence} {k : String}
    {ds : List Diagnostic} (h : mapGet (prepareDiagnostics ws occs) k = some ds)
    {d : Diagnostic} (hd : d ∈ ds) :
    ∃ occ ∈ occs, d = mkDiagnostic occ := by
  rw [prepareDiagnostics_get] at h
  have hds := appendOpt_none_eq_some h
  rw [hds] at hd
  obtain ⟨o, ho, rfl⟩ := List.mem_map.mp hd
  obtain ⟨ho1, -⟩ := List.mem_filter.mp ho
  rw [rewritePaths] at ho1
  obtain ⟨occ, hocc, rfl⟩ := List.mem_map.mp ho1
  exact ⟨occ, hocc, rfl⟩

theorem totalDiagnostics_push (m : DiagnosticMap) (k : String) (d : Diagnostic) :
    totalDiagnostics (pushDiagnostic m k d) = totalDiagnostics m + 1 := by
  induction m with
  | nil => simp [pushDiagnostic, totalDiagnostics]
  | cons e rest ih =>
    obtain ⟨k', ds⟩ := e
    by_cases h : k' = k
    · subst h
      simp [pushDiagnostic, totalDiagnostics]
      omega
    · simp [pushDiagnostic, totalDiagnostics, h, ih]
      omega

theorem totalDiagnostics_foldl (occs : List Occurence) :
    ∀ m, totalDiagnostics (occs.foldl addOccurrence m) = totalDiagnostics m + occs.length := by
  induction occs with
  | nil => intro m; simp
  | cons occ rest ih =>
    intro m
    rw [List.foldl_cons, ih, addOccurrence, totalDiagnostics_push]
    simp
    omega

/-- C1: every occurrence translated by `prepareDiagnostics` yields, in the
entry at its resolved path, a diagnostic whose range runs from
`(beginLine - 1, adjustedBeginColumn)` to `(endLine - 1, endColumn)`, where the
begin column is decremented exactly when it is positive and the end column is
taken unmodified; conversely every diagnostic in the map carries such a range
for some input occurrence. -/
theorem prepareDiagnostics_range (workspaceDirPath : String) (occurrences : List Occurence) :
    (∀ occurrence ∈ occurrences, ∃ ds,
        mapGet (prepareDiagnostics workspaceDirPath occurrences)
            (pathJoin workspaceDirPath occurrence.path) = some ds ∧
        ∃ d ∈ ds, d.range =
          ⟨⟨occurrence.beginLine - 1,
             if occurrence.beginColumn > 0 then occurrence.beginColumn - 1
             else occurrence.beginColumn⟩,
           ⟨occurrence.endLine - 1, occurrence.endColumn⟩⟩)
    ∧ (∀ k ds, mapGet (prepareDiagnostics workspaceDirPath occurrences) k = some ds →
        ∀ d ∈ ds, ∃ occurrence ∈ occurrences, d.range =
          ⟨⟨occurrence.beginLine - 1,
             if occurrence.beginColumn > 0 then occurrence.beginColumn - 1
             else occurrence.beginColumn⟩,
           ⟨occurrence.endLine - 1, occurrence.endColumn⟩⟩) := by
  constructor
  · intro occurrence hocc
    obtain ⟨ds, hget, hmem⟩ :=
      mapGet_prepareDiagnostics_mem workspaceDirPath occurrences occurrence hocc
    exact ⟨ds, hget, mkDiagnostic occurrence, hmem, rfl⟩
  · intro k ds h d hd
    obtain ⟨occurrence, hocc, rfl⟩ := mem_mapGet_prepareDiagnostics h hd
    exact ⟨occurrence, hocc, rfl⟩

/-- Witness for C1 at the spec's own scenario: occurrence
`{path: "a.py", beginLine: 5, endLine: 5, beginColumn: 3, endColumn: 10}` in
workspace `/repo` produces a diagnostic with range `(4,2)-(4,10)`. -/
theorem prepareDiagnostics_range_witness :
    ∃ ds, mapGet (prepareDiagnostics "/repo" [⟨"a.py", 5, 5, 3, 10, ⟨"Unused import"⟩⟩])
        (pathJoin "/repo" "a.py") = some ds ∧
      ∃ d ∈ ds, d.range = ⟨⟨4, 2⟩, ⟨4, 10⟩⟩ :=
  (prepareDiagnostics_range "/repo" [⟨"a.py", 5, 5, 3, 10, ⟨"Unused import"⟩⟩]).1
    ⟨"a.py", 5, 5, 3, 10, ⟨"Unused import"⟩⟩ (by simp)

/-- C5: the diagnostic map has an entry for a path exactly when some input
occurrence resolves (by joining with the workspace root) to that path, and the
occurrences contribute exactly one diagnostic each: the total count over all
entries equals the input length. -/
theorem prepareDiagnostics_keys_and_count (workspaceDirPath : String)
    (occurrences : List Occurence) (k : String) :
    (mapHas (prepareDiagnostics workspaceDirPath occurrences) k = true ↔
      ∃ occurrence ∈ occurrences, pathJoin workspaceDirPath occurrence.path = k)
    ∧ totalDiagnostics (prepareDiagnostics workspaceDirPath occurrences)
        = occurrences.length := by
  constructor
  · rw [mapHas, prepareDiagnostics_get, appendOpt_none_isSome]
    constructor
    · intro h
      obtain ⟨d, hd⟩ := List.exists_mem_of_ne_nil _ h
      obtain ⟨o, ho, rfl⟩ := List.mem_map.mp hd
      obtain ⟨ho1, ho2⟩ := List.mem_filter.mp ho
      rw [rewritePaths] at ho1
      obtain ⟨occurrence, hocc, rfl⟩ := List.mem_map.mp ho1
      exact ⟨occurrence, hocc, by simpa using ho2⟩
    · rintro ⟨occurrence, hocc, hjoin⟩
      subst hjoin
      exact List.ne_nil_of_mem (mk_mem_filtered workspaceDirPath occurrences occurrence hocc)
  · rw [prepareDiagnostics, totalDiagnostics_foldl, rewritePaths]
    simp [totalDiagnostics]

/-- C9: every diagnostic produced carries some occurrence's issue title as its
message and the fixed severity `Error`. -/
theorem prepareDiagnostics_message_severity (workspaceDirPath : String)
    (occurrences : List Occurence) :
    ∀ k ds, mapGet (prepareDiagnostics workspaceDirPath occurrences) k = some ds →
      ∀ d ∈ ds, d.severity = DiagnosticSeverity.Error ∧
        ∃ occurrence ∈ occurrences, d.message = occurrence.issue.title := by
  intro k ds h d hd
  obtain ⟨occurrence, hocc, rfl⟩ := mem_mapGet_prepareDiagnostics h hd
  exact ⟨rfl, occurrence, hocc, rfl⟩

/-- Witness for C9 at a concrete occurrence. -/
theorem prepareDiagnostics_message_severity_witness :
    (mkDiagnostic ⟨"a.py", 5, 5, 3, 10, ⟨"Unused import"⟩⟩).severity
        = DiagnosticSeverity.Error ∧
    ∃ occurrence ∈ [(⟨"a.py", 5, 5, 3, 10, ⟨"Unused import"⟩⟩ : Occurence)],
      (mkDiagnostic ⟨"a.py", 5, 5, 3, 10, ⟨"Unused import"⟩⟩).message
        = occurrence.issue.title :=
  prepareDiagnostics_message_severity "/repo" [⟨"a.py", 5, 5, 3, 10, ⟨"Unused import"⟩⟩]
    (pathJoin "/repo" "a.py") [mkDiagnostic ⟨"a.py", 5, 5, 3, 10, ⟨"Unused import"⟩⟩]
    (by decide) (mkDiagnostic ⟨"a.py", 5, 5, 3, 10, ⟨"Unused import"⟩⟩) (by simp)

/-- C10: an occurrence with a negative `beginColumn` (outside the documented
domain) has its begin column passed through unchanged into the produced
diagnostic, because the guard on line 85 tests `beginColumn > 0`, not
`beginColumn != 0`. -/
theorem prepareDiagnostics_negative_beginColumn (workspaceDirPath : String)
    (occurrences : List Occurence) (occurrence : Occurence)
    (hmem : occurrence ∈ occurrences) (hneg : occurrence.beginColumn < 0) :
    ∃ ds, mapGet (prepareDiagnostics workspaceDirPath occurrences)
        (pathJoin workspaceDirPath occurrence.path) = some ds ∧
      ∃ d ∈ ds, d.range.start.character = occurrence.beginColumn := by
  obtain ⟨ds, hget, hmemd⟩ :=
    mapGet_prepareDiagnostics_mem workspaceDirPath occurrences occurrence hmem
  refine ⟨ds, hget, mkDiagnostic occurrence, hmemd, ?_⟩
  have : ¬ occurrence.beginColumn > 0 := by omega
  simp [mkDiagnostic, this]

/-- Witness for C10 at `beginColumn = -2`. -/
theorem prepareDiagnostics_negative_beginColumn_witness :
    ∃ ds, mapGet (prepareDiagnostics "/repo" [⟨"a.py", 5, 5, -2, 10, ⟨"Unused import"⟩⟩])
        (pathJoin "/repo" "a.py") = some ds ∧
      ∃ d ∈ ds, d.range.start.character = (-2 : Int) :=
  prepareDiagnostics_negative_beginColumn "/repo" [⟨"a.py", 5, 5, -2, 10, ⟨"Unused import"⟩⟩]
    ⟨"a.py", 5, 5, -2, 10, ⟨"Unused import"⟩⟩ (by simp) (by decide)

theorem mkDiagnostic_path_irrel (occ : Occurence) (x : String) :
    mkDiagnostic { occ with path := x } = mkDiagnostic occ := rfl

theorem foldl_addOccurrence_single (k : String) (occs : List Occurence) :
    ∀ acc : List Diagnostic, (∀ occ ∈ occs, occ.path = k) →
      occs.foldl addOccurrence [(k, acc)] = [(k, acc ++ occs.map mkDiagnostic)] := by
  induction occs with
  | nil => intro acc _; simp
  | cons occ rest ih =>
    intro acc hall
    have hocc : occ.path = k := hall occ (by simp)
    rw [List.foldl_cons,
      show addOccurrence [(k, acc)] occ = [(k, acc ++ [mkDiagnostic occ])] by
        simp [addOccurrence, pushDiagnostic, hocc],
      ih (acc ++ [mkDiagnostic occ]) (fun o ho => hall o (by simp [ho]))]
    simp

/-- C6: translating a nonempty batch of occurrences that all name the same
file yields a map with a single entry, holding one diagnostic per occurrence in
input order. -/
theorem prepareDiagnostics_single_file (workspaceDirPath q : String)
    (occurrences : List Occurence) (hne : occurrences ≠ [])
    (hall : ∀ occurrence ∈ occurrences, occurrence.path = q) :
    prepareDiagnostics workspaceDirPath occurrences
      = [(pathJoin workspaceDirPath q, occurrences.map mkDiagnostic)] := by
  cases occurrences with
  | nil => exact absurd rfl hne
  | cons occ rest =>
    have hocc : occ.path = q := hall occ (by simp)
    rw [prepareDiagnostics, rewritePaths, List.map_cons, List.foldl_cons,
      show addOccurrence [] { occ with path := pathJoin workspaceDirPath occ.path }
          = [(pathJoin workspaceDirPath q, [mkDiagnostic occ])] by
        simp [addOccurrence, pushDiagnostic, hocc, mkDiagnostic_path_irrel],
      foldl_addOccurrence_single (pathJoin workspaceDirPath q) _ [mkDiagnostic occ]
        (by
          intro o ho
          obtain ⟨o', ho', rfl⟩ := List.mem_map.mp ho
          simp [hall o' (by simp [ho'])]),
      show (rest.map fun occurrence =>
            { occurrence with path := pathJoin workspaceDirPath occurrence.path }).map
              mkDiagnostic = rest.map mkDiagnostic by
        rw [List.map_map]; rfl]
    simp

/-- Witness for C6: two occurrences in the same file produce one entry with two
diagnostics in input order. -/
theorem prepareDiagnostics_single_file_witness :
    prepareDiagnostics "/repo"
        [⟨"a.py", 5, 5, 3, 10, ⟨"Unused import"⟩⟩, ⟨"a.py", 7, 7, 0, 4, ⟨"Dead code"⟩⟩]
      = [(pathJoin "/repo" "a.py",
          List.map mkDiagnostic
            [⟨"a.py", 5, 5, 3, 10, ⟨"Unused import"⟩⟩, ⟨"a.py", 7, 7, 0, 4, ⟨"Dead code"⟩⟩])] :=
  prepareDiagnostics_single_file "/repo" "a.py"
    [⟨"a.py", 5, 5, 3, 10, ⟨"Unused import"⟩⟩, ⟨"a.py", 7, 7, 0, 4, ⟨"Dead code"⟩⟩]
    (by simp) (by decide)

/-- C7: the active-editor handler leaves the display untouched when no editor
is active; otherwise it clears everything and shows exactly the diagnostic
map's entry for the new file (nothing when there is no entry), so at most one
file's diagnostics are ever visible. -/
theorem handleActiveEditorChange_spec (display diagnosticsInFile : DiagnosticMap) :
    handleActiveEditorChange display diagnosticsInFile none = display
    ∧ (∀ filePath, handleActiveEditorChange display diagnosticsInFile (some filePath)
        = match mapGet diagnosticsInFile filePath with
          | some ds => [(filePath, ds)]
          | none => [])
    ∧ (∀ filePath,
        (handleActiveEditorChange display diagnosticsInFile (some filePath)).length ≤ 1) := by
  refine ⟨rfl, ?_, ?_⟩
  · intro filePath
    cases h : mapGet diagnosticsInFile filePath <;>
      simp [handleActiveEditorChange, mapHas, mapSet, h]
  · intro filePath
    cases h : mapGet diagnosticsInFile filePath <;>
      simp [handleActiveEditorChange, mapHas, mapSet, h]

/-- Counterexample to C2 as stated: calling `prepareDiagnostics` twice on the
very same occurrence array does not yield identical maps, because the first
call rewrites `occurrence.path` in place (lines 76-79), so the second call
joins the workspace root onto an already-absolute path and produces a map with
a different key. -/
theorem prepareDiagnostics_rerun_mutated_differs :
    (prepareDiagnosticsTwice "/repo" [⟨"a.py", 5, 5, 3, 10, ⟨"Unused import"⟩⟩]).2
      ≠ (prepareDiagnosticsTwice "/repo" [⟨"a.py", 5, 5, 3, 10, ⟨"Unused import"⟩⟩]).1 := by
  decide

/-- C2 as amended: the translation is idempotent at the level of values and
session state — the map stored by `calculateDiagnostics` is built from a fresh
empty map on every call, so it does not depend on (or accumulate into) the
previously stored map, and repeating the store with the same occurrence-list
value changes nothing. -/
theorem runTranslate_fresh_idempotent (st₁ st₂ : ExtState) (workspaceDirPath : String)
    (occurrences : List Occurence) :
    (runTranslate st₁ workspaceDirPath occurrences).diagnosticsInFile
        = (runTranslate st₂ workspaceDirPath occurrences).diagnosticsInFile
    ∧ runTranslate (runTranslate st₁ workspaceDirPath occurrences) workspaceDirPath occurrences
        = runTranslate st₁ workspaceDirPath occurrences :=
  ⟨rfl, rfl⟩

/-- C8: when the fetch fails — in particular when the client handle, the user
name, the repository name, or the API's data is absent — `calculateDiagnostics`
leaves the stored diagnostic map exactly as it was and reports failure. -/
theorem calculateDiagnostics_failure_keeps_map (workspaceDirPath : String) (st : ExtState)
    (apiResult : Option (List Occurence)) :
    ((fetchAnalysisReport st apiResult).1 = none →
      (calculateDiagnostics workspaceDirPath st apiResult).state.diagnosticsInFile
          = st.diagnosticsInFile ∧
      (calculateDiagnostics workspaceDirPath st apiResult).success = false)
    ∧ (st.deepSource = none ∨ st.userName = none ∨ st.repoName = none ∨ apiResult = none →
        (fetchAnalysisReport st apiResult).1 = none) := by
  constructor
  · intro h
    simp [calculateDiagnostics, h]
  · intro h
    rcases h with h | h | h | h <;>
      · obtain ⟨a, b, c, d, e⟩ := st
        cases a <;> cases b <;> cases c <;> cases apiResult <;>
          simp_all [fetchAnalysisReport]

/-- Witness for C8: a failed fetch (absent repository identity, no API data)
leaves a previously stored map unchanged. -/
theorem calculateDiagnostics_failure_keeps_map_witness :
    (calculateDiagnostics "/ws" ⟨some "tok", some "user", some "repo", some "tok",
        [("/ws/a.py", [])]⟩ none).state.diagnosticsInFile = [("/ws/a.py", [])] ∧
    (calculateDiagnostics "/ws" ⟨some "tok", some "user", some "repo", some "tok",
        [("/ws/a.py", [])]⟩ none).success = false :=
  (calculateDiagnostics_failure_keeps_map "/ws"
      ⟨some "tok", some "user", some "repo", some "tok", [("/ws/a.py", [])]⟩ none).1
    ((calculateDiagnostics_failure_keeps_map "/ws"
      ⟨some "tok", some "user", some "repo", some "tok", [("/ws/a.py", [])]⟩ none).2
      (Or.inr (Or.inr (Or.inr rfl))))

/-- C3 settles as a code bug: after a freshly entered token fails, the stored
token is indeed forgotten (`has` is false) and the "incorrect token" error is
shown, but the module-level `deepSource` handle built from the bad token is
never cleared, so the next command invocation takes the `if (deepSource)` fast
path (line 171) and does not re-prompt — contradicting the eviction's purpose
and leaving no way to ever enter a new token in the session. -/
theorem freshTokenFailure_no_reprompt :
    (runGetAnalysisReport "/ws" ⟨none, some "user", some "repo", none, []⟩
        (some "badtoken") none).state.cacheToken = none
    ∧ "Incorrect personal access token."
        ∈ (runGetAnalysisReport "/ws" ⟨none, some "user", some "repo", none, []⟩
            (some "badtoken") none).messages
    ∧ (runGetAnalysisReport "/ws" ⟨none, some "user", some "repo", none, []⟩
        (some "badtoken") none).state.deepSource = some "badtoken"
    ∧ (runGetAnalysisReport "/ws"
        (runGetAnalysisReport "/ws" ⟨none, some "user", some "repo", none, []⟩
          (some "badtoken") none).state
        (some "goodtoken") (some [])).prompted = false := by
  decide

/-! URL parsing lemmas for the resolver's regex model. -/

theorem takeWhile_append_all {p : Char → Bool} (u : List Char) (c : Char) (t : List Char)
    (hu : ∀ x ∈ u, p x = true) (hc : p c = false) :
    (u ++ c :: t).takeWhile p = u := by
  induction u with
  | nil => simp [List.takeWhile_cons, hc]
  | cons a u ih =>
    have ha := hu a (by simp)
    simp [List.takeWhile_cons, ha, ih fun x hx => hu x (by simp [hx])]

theorem dropWhile_append_all {p : Char → Bool} (u : List Char) (c : Char) (t : List Char)
    (hu : ∀ x ∈ u, p x = true) (hc : p c = false) :
    (u ++ c :: t).dropWhile p = c :: t := by
  induction u with
  | nil => simp [List.dropWhile_cons, hc]
  | cons a u ih =>
    have ha := hu a (by simp)
    simp [List.dropWhile_cons, ha, ih fun x hx => hu x (by simp [hx])]

theorem startsWithDotGit_iff (cs : List Char) :
    startsWithDotGit cs = true ↔ ∃ post, cs = '.' :: 'g' :: 'i' :: 't' :: post := by
  match cs with
  | [] => simp [startsWithDotGit]
  | [c1] => simp [startsWithDotGit]
  | [c1, c2] => simp [startsWithDotGit]
  | [c1, c2, c3] => simp [startsWithDotGit]
  | c1 :: c2 :: c3 :: c4 :: rest =>
    constructor
    · intro h
      have h' := h
      simp only [startsWithDotGit, Bool.and_eq_true, beq_iff_eq] at h'
      obtain ⟨⟨⟨rfl, rfl⟩, rfl⟩, rfl⟩ := h'
      exact ⟨rest, rfl⟩
    · rintro ⟨post, hpost⟩
      rw [hpost]
      rfl

theorem matchAt_sound {cs u r : List Char} (h : matchAt cs = some (u, r)) :
    u ≠ [] ∧ r ≠ [] ∧ u.all isWordOrHyphen = true ∧ r.all isWordOrHyphen = true ∧
    ∃ post, cs = u ++ '/' :: (r ++ '.' :: 'g' :: 'i' :: 't' :: post) := by
  simp only [matchAt] at h
  cases hdrop : cs.dropWhile isWordOrHyphen with
  | nil => rw [hdrop] at h; exact absurd h (by simp)
  | cons c rest =>
    rw [hdrop] at h
    by_cases hc : c = '/'
    · subst hc
      simp only [beq_self_eq_true, if_true] at h
      by_cases hemp : (cs.takeWhile isWordOrHyphen).isEmpty
          || (rest.takeWhile isWordOrHyphen).isEmpty
      · rw [if_pos hemp] at h; exact absurd h (by simp)
      · rw [if_neg hemp] at h
        by_cases hgit : startsWithDotGit (rest.dropWhile isWordOrHyphen)
        · rw [if_pos hgit] at h
          obtain ⟨rfl, rfl⟩ : cs.takeWhile isWordOrHyphen = u
              ∧ rest.takeWhile isWordOrHyphen = r := by
            have := Option.some.inj h
            exact ⟨congrArg Prod.fst this, congrArg Prod.snd this⟩
          rw [Bool.or_eq_true, not_or] at hemp
          obtain ⟨he1, he2⟩ := hemp
          rw [Bool.not_eq_true, List.isEmpty_eq_false] at he1 he2
          refine ⟨?_, ?_, ?_, ?_, ?_⟩
          · exact he1
          · exact he2
          · exact List.all_eq_true.mpr fun x hx => List.mem_takeWhile_imp hx
          · exact List.all_eq_true.mpr fun x hx => List.mem_takeWhile_imp hx
          · obtain ⟨post, hpost⟩ := (startsWithDotGit_iff _).mp hgit
            refine ⟨post, ?_⟩
            conv_lhs => rw [← List.takeWhile_append_dropWhile isWordOrHyphen cs, hdrop,
              ← List.takeWhile_append_dropWhile isWordOrHyphen rest, hpost]
        · rw [if_neg hgit] at h; exact absurd h (by simp)
    · simp [hc] at h

theorem matchAt_complete (u r post : List Char) (hu : u ≠ []) (hr : r ≠ [])
    (hu' : ∀ x ∈ u, isWordOrHyphen x = true) (hr' : ∀ x ∈ r, isWordOrHyphen x = true) :
    matchAt (u ++ '/' :: (r ++ '.' :: 'g' :: 'i' :: 't' :: post)) = some (u, r) := by
  have hslash : isWordOrHyphen '/' = false := by decide
  have hdot : isWordOrHyphen '.' = false := by decide
  have h1 := takeWhile_append_all u '/' (r ++ '.' :: 'g' :: 'i' :: 't' :: post) hu' hslash
  have h2 := dropWhile_append_all u '/' (r ++ '.' :: 'g' :: 'i' :: 't' :: post) hu' hslash
  have h3 := takeWhile_append_all r '.' ('g' :: 'i' :: 't' :: post) hr' hdot
  have h4 := dropWhile_append_all r '.' ('g' :: 'i' :: 't' :: post) hr' hdot
  simp only [matchAt, h1, h2, h3, h4]
  simp [startsWithDotGit, hu, hr]

theorem findMatch_isSome_append (pre : List Char) (cs : List Char)
    (h : (matchAt cs).isSome = true) : (findMatch (pre ++ cs)).isSome = true := by
  induction pre with
  | nil =>
    rw [List.nil_append]
    cases cs with
    | nil => exact absurd h (by simp [matchAt])
    | cons c rest =>
      rw [findMatch]
      cases hm : matchAt (c :: rest) with
      | some v => simp
      | none => rw [hm] at h; exact absurd h (by simp)
  | cons p pre ih =>
    rw [List.cons_append, findMatch]
    cases hm : matchAt (p :: (pre ++ cs)) with
    | some v => simp
    | none => simpa using ih

theorem findMatch_some_decomp (cs : List Char) (h : (findMatch cs).isSome = true) :
    ∃ pre u r post, cs = pre ++ (u ++ '/' :: (r ++ '.' :: 'g' :: 'i' :: 't' :: post))
      ∧ u ≠ [] ∧ r ≠ [] ∧ u.all isWordOrHyphen = true ∧ r.all isWordOrHyphen = true := by
  induction cs with
  | nil => exact absurd h (by simp [findMatch])
  | cons c rest ih =>
    rw [findMatch] at h
    cases hm : matchAt (c :: rest) with
    | some v =>
      obtain ⟨u, r⟩ := v
      obtain ⟨hu, hr, hu', hr', post, hcs⟩ := matchAt_sound hm
      exact ⟨[], u, r, post, by simpa using hcs, hu, hr, hu', hr'⟩
    | none =>
      rw [hm] at h
      obtain ⟨pre, u, r, post, hcs, hrest⟩ := ih h
      exact ⟨c :: pre, u, r, post, by simp [hcs], hrest⟩

theorem getRepoAndUserName_eq (url : String) :
    getRepoAndUserName true (some url)
      = match findMatch url.toList with
        | some (userChars, repoChars) => some ⟨String.mk userChars, String.mk repoChars⟩
        | none => none := rfl

theorem getRepoAndUserName_isSome_eq (url : String) :
    (getRepoAndUserName true (some url)).isSome = (findMatch url.toList).isSome := by
  rw [getRepoAndUserName_eq]
  rcases findMatch url.toList with - | ⟨a, b⟩ <;> rfl

/-- C4 as amended: the resolver succeeds exactly when the remote URL contains a
substring of the form `<segment>/<segment>.git` — the `.git` suffix is
*required*, not optional, the segments need not be the final ones, and the
leftmost such substring is the one captured. On any other URL it resolves to
null, as it does when the workspace is not a git repository or the remote URL
is unset. -/
theorem getRepoAndUserName_some_iff (url : String) :
    ((getRepoAndUserName true (some url)).isSome = true ↔
      ∃ pre u r post,
        url.toList = pre ++ (u ++ '/' :: (r ++ '.' :: 'g' :: 'i' :: 't' :: post))
        ∧ u ≠ [] ∧ r ≠ [] ∧ u.all isWordOrHyphen = true ∧ r.all isWordOrHyphen = true)
    ∧ (∀ remoteUrl, getRepoAndUserName false remoteUrl = none)
    ∧ getRepoAndUserName true none = none := by
  refine ⟨?_, fun remoteUrl => rfl, rfl⟩
  rw [getRepoAndUserName_isSome_eq]
  constructor
  · exact findMatch_some_decomp url.toList
  · rintro ⟨pre, u, r, post, hcs, hu, hr, hu', hr'⟩
    rw [hcs]
    apply findMatch_isSome_append
    rw [matchAt_complete u r post hu hr (List.all_eq_true.mp hu') (List.all_eq_true.mp hr')]
    rfl

/-- Counterexample to C4 as stated: the conventional URL
`https://github.com/user/repo` has word-character final segments and no `.git`
suffix; under the claim's rule (suffix optional) it should resolve to
`user`/`repo` — and `claimResolveUrl`, built from the claim's words, does — but
the code's regex requires a literal `.git` and resolves it to null. -/
theorem getRepoAndUserName_missing_git_suffix :
    claimResolveUrl "https://github.com/user/repo" = some ⟨"user", "repo"⟩ ∧
    getRepoAndUserName true (some "https://github.com/user/repo") = none := by
  exact ⟨by decide, by decide⟩
